import Mathlib

/-!
Verification of the tweet-loading pipeline (`load_tweets.py`, row strategy;
`load_tweets_batch.py`, batch strategy).

The Python source is embedded shallowly: strings are modelled as `String`
(or `List Char` where character-level replacement must be reasoned about),
JSON numbers appearing only as opaque payloads are modelled as `Int`,
optional / possibly-missing JSON fields as `Option`, uncaught Python
exceptions as `Except` / `Option` failure, and the database as an explicit
state record threaded through the operations.
-/

namespace Loader

/-! ## Sanitizers

`load_tweets.py` line 30: `s.replace('\x00','')` — NUL characters deleted.
`load_tweets_batch.py` line 38: `s.replace('\x00','\\x00')` — each NUL
replaced by the literal four characters backslash, `x`, `0`, `0`.
Since the pattern is the single character NUL, Python's left-to-right
`str.replace` is character-wise, which the definitions below mirror.
-/

/-- The NUL character. -/
def nulChar : Char := '\x00'

/-- The escape text substituted for NUL by the batch sanitizer:
backslash, `x`, `0`, `0` (four characters). -/
def escSeq : List Char := ['\\', 'x', '0', '0']

/-- Strict (row-path) sanitizer core: `s.replace('\x00','')` from
`load_tweets.py` line 30.  Deleting every occurrence of a single
character is exactly a filter. -/
def stripNullsL (l : List Char) : List Char :=
  l.filter (fun c => c ≠ nulChar)

/-- Strict sanitizer on `String` (`remove_nulls` of `load_tweets.py`,
restricted to actual strings; the `None` case is handled at use sites by
`Option.map`). -/
def stripNulls (s : String) : String :=
  ⟨stripNullsL s.data⟩

/-- Escaping (batch-path) sanitizer core:
`s.replace('\x00','\\x00')` from `load_tweets_batch.py` line 38. -/
def escNullsL : List Char → List Char
  | [] => []
  | c :: cs => if c = nulChar then escSeq ++ escNullsL cs else c :: escNullsL cs

/-- Escaping sanitizer on `String` (`remove_nulls` of
`load_tweets_batch.py`, restricted to actual strings). -/
def escNulls (s : String) : String :=
  ⟨escNullsL s.data⟩

/-- Modelled from the spec: the reverse of the escape substitution
("reversing that escape sequence on the output").  No such function exists
in the source; this is the left-to-right replacement of every occurrence
of the four-character escape sequence by a NUL, the inverse direction of
`escNullsL`. -/
def unescNullsL : List Char → List Char
  | [] => []
  | c :: cs =>
    if c = '\\' ∧ cs.take 3 = ['x', '0', '0'] then
      nulChar :: unescNullsL (cs.drop 3)
    else
      c :: unescNullsL cs
termination_by l => l.length
decreasing_by
  · simp only [List.length_cons, List.length_drop]
    omega
  · simp

/-- Occurrence test for the escape sequence inside a character list. -/
def hasEscSeq : List Char → Bool
  | [] => false
  | c :: cs => (c = '\\' ∧ cs.take 3 = ['x', '0', '0'] : Bool) || hasEscSeq cs

theorem stripNullsL_no_nul (l : List Char) : nulChar ∉ stripNullsL l := by
  intro h
  have := List.of_mem_filter h
  simp at this

theorem stripNullsL_length_le (l : List Char) :
    (stripNullsL l).length ≤ l.length :=
  List.length_filter_le _ l

/-- If the escape sequence does not occur in `l`, neither does it occur in
a tail of `l`. -/
theorem hasEscSeq_cons_false {c : Char} {cs : List Char}
    (h : hasEscSeq (c :: cs) = false) :
    ¬(c = '\\' ∧ cs.take 3 = ['x', '0', '0']) ∧ hasEscSeq cs = false := by
  simp only [hasEscSeq, Bool.or_eq_false_iff, decide_eq_false_iff_not] at h
  exact h

/-- The first character of an escaped list is `0` only if the first
character of the original already was. -/
theorem escNullsL_take1 (cs : List Char)
    (h : (escNullsL cs).take 1 = ['0']) : cs.take 1 = ['0'] := by
  match cs with
  | [] => simp [escNullsL] at h
  | c :: cs' =>
    rw [escNullsL] at h
    by_cases h1 : c = nulChar
    · rw [if_pos h1] at h
      simp [escSeq] at h
    · rw [if_neg h1] at h
      simpa using h

/-- The first two characters of an escaped list are `0`, `0` only if the
first two characters of the original already were. -/
theorem escNullsL_take2 (cs : List Char)
    (h : (escNullsL cs).take 2 = ['0', '0']) : cs.take 2 = ['0', '0'] := by
  match cs with
  | [] => simp [escNullsL] at h
  | c :: cs' =>
    rw [escNullsL] at h
    by_cases h1 : c = nulChar
    · rw [if_pos h1] at h
      simp [escSeq] at h
    · rw [if_neg h1] at h
      simp only [List.take_succ_cons, List.cons.injEq] at h
      have := escNullsL_take1 cs' h.2
      simp only [List.take_succ_cons, List.cons.injEq]
      exact ⟨h.1, this⟩

/-- The first three characters of an escaped list are `x`, `0`, `0` only
if the first three characters of the original already were. -/
theorem escNullsL_take3 (cs : List Char)
    (h : (escNullsL cs).take 3 = ['x', '0', '0']) :
    cs.take 3 = ['x', '0', '0'] := by
  match cs with
  | [] => simp [escNullsL] at h
  | c :: cs' =>
    rw [escNullsL] at h
    by_cases h1 : c = nulChar
    · rw [if_pos h1] at h
      simp [escSeq] at h
    · rw [if_neg h1] at h
      simp only [List.take_succ_cons, List.cons.injEq] at h
      have := escNullsL_take2 cs' h.2
      simp only [List.take_succ_cons, List.cons.injEq]
      exact ⟨h.1, this⟩

/-- Round trip: on inputs that do not already contain the literal escape
sequence, unescaping the escaped list recovers the input. -/
theorem unesc_escNullsL (l : List Char) (h : hasEscSeq l = false) :
    unescNullsL (escNullsL l) = l := by
  match l with
  | [] => simp [escNullsL, unescNullsL]
  | c :: cs =>
    obtain ⟨hhd, htl⟩ := hasEscSeq_cons_false h
    rw [escNullsL]
    by_cases h1 : c = nulChar
    · rw [if_pos h1]
      show unescNullsL ('\\' :: ('x' :: '0' :: '0' :: escNullsL cs)) = c :: cs
      rw [unescNullsL, if_pos (by simp [List.take])]
      simp only [List.drop]
      rw [unesc_escNullsL cs htl, h1]
    · rw [if_neg h1, unescNullsL]
      have hcond : ¬(c = '\\' ∧ (escNullsL cs).take 3 = ['x', '0', '0']) := by
        intro ⟨hc, ht⟩
        exact hhd ⟨hc, escNullsL_take3 cs ht⟩
      rw [if_neg hcond, unesc_escNullsL cs htl]
termination_by l.length
decreasing_by
  · simp
  · simp

/-- C2. Claimed: the batch sanitizer replaces each NUL with a *two*
character escape sequence, and the escaping is invertible for *every*
string.  Both parts fail on the code: the replacement is the four
characters `\`, `x`, `0`, `0`, and a string that already contains that
literal four-character sequence is not reconstructed by reversing the
escape (the sequence passes through escaping unchanged and is then turned
into a NUL).  This theorem exhibits both failures at concrete inputs. -/
theorem escape_claim_counterexample :
    (escNullsL [nulChar]).length ≠ 2 ∧
      escNullsL escSeq = escSeq ∧ unescNullsL escSeq ≠ escSeq := by
  refine ⟨by decide, ?_, ?_⟩
  · rw [show escSeq = ['\\', 'x', '0', '0'] from rfl]
    simp [escNullsL, nulChar]
  · have h1 : unescNullsL escSeq = [nulChar] := by
      rw [show escSeq = ['\\', 'x', '0', '0'] from rfl]
      rw [unescNullsL, if_pos (by simp [List.take])]
      simp only [List.drop]
      rw [unescNullsL]
    rw [h1]
    decide

/-- C2 (amended).  The batch sanitizer `remove_nulls` of
`load_tweets_batch.py` replaces each NUL character with the visible
*four*-character escape sequence `\`, `x`, `0`, `0`; reversing that escape
sequence on the output reconstructs the original exactly for every string
in which the literal escape sequence does not already occur. -/
theorem escape_replaces_and_inverts (l : List Char)
    (h : hasEscSeq l = false) :
    escNullsL (nulChar :: l) = escSeq ++ escNullsL l ∧
      unescNullsL (escNullsL l) = l := by
  constructor
  · rw [escNullsL, if_pos rfl]
  · exact unesc_escNullsL l h

/-- C2 witness: the amended theorem applied at the concrete string
`"a" ++ NUL ++ "b"`. -/
theorem escape_replaces_and_inverts_witness :
    escNullsL (nulChar :: ['a', nulChar, 'b']) =
        escSeq ++ escNullsL ['a', nulChar, 'b'] ∧
      unescNullsL (escNullsL ['a', nulChar, 'b']) = ['a', nulChar, 'b'] :=
  escape_replaces_and_inverts ['a', nulChar, 'b'] (by decide)

/-! ## Batch assembler

`load_tweets_batch.py` lines 41–56: `batch(iterable, n)` yields the slices
`iterable[ndx:min(ndx + n, l)]` for `ndx in range(0, l, n)`.  The slice
`iterable[ndx:min(ndx+n,l)]` is `(drop ndx).take n`, and `range(0, l, n)`
has `ceil(l/n) = (l + n - 1) / n` elements `0, n, 2n, …` (for `n > 0`;
`n = 0` raises `ValueError` in Python and is outside the model). -/

/-- The generator `batch` of `load_tweets_batch.py`, written with the
explicit index list of `range(0, l, n)`. -/
def batchPy (xs : List α) (n : Nat) : List (List α) :=
  (List.range' 0 ((xs.length + n - 1) / n) n).map
    (fun ndx => (xs.drop ndx).take n)

/-- Recursive form of `batchPy`: repeatedly slice off the next `n`
elements. -/
def chunksRec (n : Nat) : List α → List (List α)
  | [] => []
  | x :: xs =>
    if n = 0 then []
    else (x :: xs).take n :: chunksRec n ((x :: xs).drop n)
termination_by l => l.length
decreasing_by
  simp only [List.length_drop, List.length_cons]
  omega

theorem range'_add_left (c s t step : Nat) :
    List.range' (s + t) c step = (List.range' s c step).map (· + t) := by
  induction c generalizing s with
  | zero => simp
  | succ c ih =>
    rw [List.range'_succ, List.range'_succ, List.map_cons, ← ih (s + step)]
    congr 2
    omega

theorem range'_start (c t step : Nat) :
    List.range' t c step = (List.range' 0 c step).map (· + t) := by
  have := range'_add_left c 0 t step
  simpa using this

/-- The ceiling-division recurrence behind the chunk count. -/
theorem ceil_div_succ (len n : Nat) (h1 : 1 ≤ len) (hn : 0 < n) :
    (len + n - 1) / n = (len - n + n - 1) / n + 1 := by
  rw [Nat.div_eq_sub_div hn (by omega)]
  congr 1
  rcases Nat.lt_or_ge len n with h | h
  · have e1 : len - n = 0 := by omega
    rw [e1, Nat.div_eq_of_lt (by omega), Nat.div_eq_of_lt (by omega)]
  · congr 1
    omega

/-- The index-list form and the recursive form of the batcher agree. -/
theorem batchPy_eq_chunksRec (xs : List α) (n : Nat) (hn : 0 < n) :
    batchPy xs n = chunksRec n xs := by
  match xs with
  | [] =>
    have h0 : (n - 1) / n = 0 := Nat.div_eq_of_lt (by omega)
    simp [batchPy, chunksRec, h0]
  | x :: xs' =>
    rw [chunksRec, if_neg (by omega)]
    unfold batchPy
    have hc : ((x :: xs').length + n - 1) / n
        = ((((x :: xs').drop n).length + n - 1) / n) + 1 := by
      rw [List.length_drop]
      exact ceil_div_succ (x :: xs').length n (by simp) hn
    rw [hc, List.range'_succ, List.map_cons, List.drop_zero]
    congr 1
    rw [← batchPy_eq_chunksRec ((x :: xs').drop n) n hn]
    unfold batchPy
    rw [Nat.zero_add, range'_start _ n n, List.map_map]
    congr 1
    funext ndx
    simp [List.drop_drop, Nat.add_comm]
termination_by xs.length
decreasing_by
  simp only [List.length_drop, List.length_cons]
  omega

theorem chunksRec_flatten (xs : List α) (n : Nat) (hn : 0 < n) :
    (chunksRec n xs).flatten = xs := by
  match xs with
  | [] => simp [chunksRec]
  | x :: xs' =>
    rw [chunksRec, if_neg (by omega), List.flatten_cons,
      chunksRec_flatten ((x :: xs').drop n) n hn, List.take_append_drop]
termination_by xs.length
decreasing_by
  simp only [List.length_drop, List.length_cons]
  omega

theorem chunksRec_length (xs : List α) (n : Nat) (hn : 0 < n) :
    (chunksRec n xs).length = (xs.length + n - 1) / n := by
  have := batchPy_eq_chunksRec xs n hn
  rw [← this]
  simp [batchPy]

theorem chunksRec_mem_length_le (xs : List α) (n : Nat) (hn : 0 < n)
    (c : List α) (hc : c ∈ chunksRec n xs) : c.length ≤ n := by
  match xs with
  | [] => simp [chunksRec] at hc
  | x :: xs' =>
    rw [chunksRec, if_neg (by omega)] at hc
    rcases List.mem_cons.mp hc with h | h
    · subst h
      rw [List.length_take]
      exact Nat.min_le_left _ _
    · exact chunksRec_mem_length_le _ n hn c h
termination_by xs.length
decreasing_by
  simp only [List.length_drop, List.length_cons]
  omega

theorem chunksRec_dropLast_length (xs : List α) (n : Nat) (hn : 0 < n)
    (c : List α) (hc : c ∈ (chunksRec n xs).dropLast) : c.length = n := by
  match xs with
  | [] => simp [chunksRec] at hc
  | x :: xs' =>
    rw [chunksRec, if_neg (by omega)] at hc
    match hrest : chunksRec n ((x :: xs').drop n) with
    | [] => simp [hrest] at hc
    | r :: rs =>
      rw [hrest, List.dropLast_cons_of_ne_nil (by simp)] at hc
      rcases List.mem_cons.mp hc with h | h
      · subst h
        have hdropne : (x :: xs').drop n ≠ [] := by
          intro hdrop
          rw [hdrop] at hrest
          simp [chunksRec] at hrest
        have hlt : n < (x :: xs').length := by
          by_contra hle
          push_neg at hle
          exact hdropne (List.drop_eq_nil_of_le hle)
        simp only [List.length_take, List.length_cons] at *
        omega
      · rw [← hrest] at h
        exact chunksRec_dropLast_length _ n hn c h
termination_by xs.length
decreasing_by
  simp only [List.length_drop, List.length_cons]
  omega

/-- C9.  For every finite sequence and every positive batch size `n`, the
batch assembler yields exactly `ceil(len/n)` chunks; every chunk has at
most `n` records, all but possibly the last have exactly `n`, and the
concatenation of the chunks in order equals the input sequence. -/
theorem batch_partitions (xs : List α) (n : Nat) (hn : 0 < n) :
    (batchPy xs n).length = (xs.length + n - 1) / n ∧
      (∀ c ∈ batchPy xs n, c.length ≤ n) ∧
      (∀ c ∈ (batchPy xs n).dropLast, c.length = n) ∧
      (batchPy xs n).flatten = xs := by
  rw [batchPy_eq_chunksRec xs n hn]
  exact ⟨chunksRec_length xs n hn,
    fun c hc => chunksRec_mem_length_le xs n hn c hc,
    fun c hc => chunksRec_dropLast_length xs n hn c hc,
    chunksRec_flatten xs n hn⟩

/-- C9 witness: the doctest `batch([1,2,3,4,5], 2)` from the source gives
3 chunks of sizes `[2, 2, 1]` whose concatenation is the input. -/
theorem batch_partitions_witness :
    (batchPy [1, 2, 3, 4, 5] 2).length = (5 + 2 - 1) / 2 ∧
      (∀ c ∈ batchPy ([1, 2, 3, 4, 5] : List Nat) 2, c.length ≤ 2) ∧
      (∀ c ∈ (batchPy ([1, 2, 3, 4, 5] : List Nat) 2).dropLast,
        c.length = 2) ∧
      (batchPy [1, 2, 3, 4, 5] 2).flatten = [1, 2, 3, 4, 5] :=
  batch_partitions [1, 2, 3, 4, 5] 2 (by decide)

/-! ## The record model

Typed form of the JSON activity record, with exactly the fields the two
loaders read (spec §6).  A JSON field that may be missing (or whose read
is guarded by `dict.get` / `try`) is an `Option`; numeric payloads that
are only copied, compared or formatted are `Int`; bounding-box vertices
are `Int × Int` pairs.  `geo = none` models the ubiquitous `"geo": null`
of the source data. -/

structure UrlEntity where
  expanded_url : String
deriving DecidableEq

structure MentionEntity where
  id : Int
  name : String
  screen_name : String
deriving DecidableEq

structure TagEntity where
  text : String
deriving DecidableEq

structure MediaEntity where
  media_url : String
  kind : String
deriving DecidableEq

structure Entities where
  urls : List UrlEntity
  user_mentions : List MentionEntity
  hashtags : List TagEntity
  symbols : List TagEntity
deriving DecidableEq

structure ExtEntities where
  urls : Option (List UrlEntity)
  user_mentions : Option (List MentionEntity)
  hashtags : Option (List TagEntity)
  symbols : Option (List TagEntity)
deriving DecidableEq

structure ExtTweet where
  full_text : Option String
  entities : Option ExtEntities
  extended_entities_media : Option (List MediaEntity)
deriving DecidableEq

structure BoundingBox where
  coordinates : List (List (Int × Int))
deriving DecidableEq

structure Place where
  country_code : String
  full_name : String
  bounding_box : Option BoundingBox
deriving DecidableEq

structure TUser where
  id : Int
  created_at : String
  updated_at : Option String
  url : Option String
  friends_count : Int
  listed_count : Int
  favourites_count : Int
  statuses_count : Int
  protected_flag : Bool
  verified : Bool
  screen_name : String
  name : String
  location : Option String
  description : Option String
  withheld_in_countries : Option (List String)
deriving DecidableEq

structure Tweet where
  id : Int
  user : TUser
  created_at : String
  text : String
  extended_tweet : Option ExtTweet
  entities : Entities
  extended_entities_media : Option (List MediaEntity)
  geo : Option (List Int)
  place : Option Place
  in_reply_to_status_id : Option Int
  in_reply_to_user_id : Option Int
  in_reply_to_screen_name : Option String
  quoted_status_id : Option Int
  retweet_count : Option Int
  favorite_count : Option Int
  quote_count : Option Int
  withheld_copyright : Option Bool
  withheld_in_countries : Option (List String)
  source : Option String
  lang : Option String
deriving DecidableEq

/-! ## Field derivation, row strategy (`load_tweets.py`) and batch
strategy (`load_tweets_batch.py`) -/

/-- Geometry value handed to `ST_GeomFromText`; the WKT string
`POINT(x y)` / `POLYGON((x1 y1, …))` is represented by its constructor
and payload rather than by its formatted text. -/
inductive Wkt where
  | point (x y : Int)
  | polygon (ring : List (Int × Int))
deriving DecidableEq

/-- `load_tweets.py` lines 127–138: `POINT` from `geo.coordinates` when
indexing it at 0 and 1 succeeds; on any exception, `POLYGON` from the
first bounding-box ring (closed by appending its first vertex when first
and last differ); on any exception there, no geometry. -/
def rowGeoWkt (t : Tweet) : Option Wkt :=
  match t.geo with
  | some (x :: y :: _) => some (Wkt.point x y)
  | _ =>
    match t.place with
    | some p =>
      match p.bounding_box with
      | some bb =>
        match bb.coordinates with
        | (p0 :: ps) :: _ =>
          if (p0 :: ps).getLast? ≠ some p0 then
            some (Wkt.polygon ((p0 :: ps) ++ [p0]))
          else
            some (Wkt.polygon (p0 :: ps))
        | [] :: _ => none
        | [] => none
      | none => none
    | none => none

/-- `load_tweets_batch.py` lines 145–152: only the `POINT` case is
implemented (`except TypeError` catches the `geo = null` access); the
polygon branch is omitted in the source (`geo_str = None`).  A `geo`
object whose coordinate list is too short raises an uncaught
`IndexError`, modelled as `Except.error`. -/
def batchGeo (t : Tweet) : Except Unit (Option String × Option String) :=
  match t.geo with
  | some (x :: y :: _) =>
    Except.ok (some "POINT", some (toString x ++ " " ++ toString y))
  | some _ => Except.error ()
  | none => Except.ok (none, none)

/-- `extended_tweet.full_text` when every step of the access succeeds. -/
def extFullText (t : Tweet) : Option String :=
  t.extended_tweet.bind ExtTweet.full_text

/-- `load_tweets.py` lines 140–142. -/
def rowBodyText (t : Tweet) : String :=
  stripNulls ((extFullText t).getD t.text)

/-- `load_tweets_batch.py` lines 154–157 together with the
`remove_nulls` applied at line 200. -/
def batchBodyText (t : Tweet) : String :=
  escNulls ((extFullText t).getD t.text)

/-- Python `str.lower()`, character-wise (exact for the ASCII country
codes and place names involved). -/
def pyLower (s : String) : String :=
  ⟨s.data.map Char.toLower⟩

/-- Python `str.split(sep)` for a one-character separator: `split('')`
is `[""]`, and every separator occurrence starts a new group. -/
def splitOnChar (sep : Char) : List Char → List (List Char)
  | [] => [[]]
  | c :: cs =>
    let r := splitOnChar sep cs
    if c = sep then [] :: r
    else
      match r with
      | g :: gs => (c :: g) :: gs
      | [] => [[c]]

/-- Python `s.split(',')[-1]` — the final comma-delimited component
(`split` never returns an empty list, so the `""` default is never
used). -/
def lastCommaComponent (s : String) : String :=
  ⟨(splitOnChar ',' s.data).getLastD []⟩

/-- Whitespace test used by Python `str.strip()` (ASCII subset). -/
def isSpaceChar (c : Char) : Bool :=
  c = ' ' || c = '\t' || c = '\n' || c = '\r'

/-- Python `str.strip()`: drop leading and trailing whitespace. -/
def pyStrip (s : String) : String :=
  ⟨(((s.data.dropWhile isSpaceChar).reverse.dropWhile isSpaceChar).reverse)⟩

/-- The candidate state code
`tweet['place']['full_name'].split(',')[-1].strip().lower()`. -/
def stateCandidate (fn : String) : String :=
  pyLower (pyStrip (lastCommaComponent fn))

/-- `load_tweets.py` lines 143–147: lower-cased
`place.country_code`, `None` when the access raises. -/
def rowCountryCode (t : Tweet) : Option String :=
  t.place.map (fun p => pyLower p.country_code)

/-- `load_tweets.py` lines 149–152. -/
def rowStateCode (t : Tweet) : Option String :=
  if rowCountryCode t = some "us" then
    match t.place with
    | some p =>
      let sc := stateCandidate p.full_name
      if sc.length ≤ 2 then some sc else none
    | none => none
  else none

/-- `load_tweets_batch.py` lines 159–163 (identical to the row path). -/
def batchCountryCode (t : Tweet) : Option String :=
  t.place.map (fun p => pyLower p.country_code)

/-- `load_tweets_batch.py` lines 165–168 (identical to the row path). -/
def batchStateCode (t : Tweet) : Option String :=
  if batchCountryCode t = some "us" then
    match t.place with
    | some p =>
      let sc := stateCandidate p.full_name
      if sc.length ≤ 2 then some sc else none
    | none => none
  else none

/-- `extended_tweet.entities.urls` when every step succeeds. -/
def extUrls (t : Tweet) : Option (List UrlEntity) :=
  (t.extended_tweet.bind ExtTweet.entities).bind ExtEntities.urls

/-- `extended_tweet.entities.user_mentions` when every step succeeds. -/
def extMentions (t : Tweet) : Option (List MentionEntity) :=
  (t.extended_tweet.bind ExtTweet.entities).bind ExtEntities.user_mentions

/-- `extended_tweet.entities.hashtags` when every step succeeds. -/
def extHashtags (t : Tweet) : Option (List TagEntity) :=
  (t.extended_tweet.bind ExtTweet.entities).bind ExtEntities.hashtags

/-- `extended_tweet.entities.symbols` when every step succeeds. -/
def extSymbols (t : Tweet) : Option (List TagEntity) :=
  (t.extended_tweet.bind ExtTweet.entities).bind ExtEntities.symbols

/-- `load_tweets.py` lines 206–207. -/
def rowUrls (t : Tweet) : List UrlEntity :=
  (extUrls t).getD t.entities.urls

/-- `load_tweets.py` lines 220–221. -/
def rowMentions (t : Tweet) : List MentionEntity :=
  (extMentions t).getD t.entities.user_mentions

/-- `load_tweets.py` lines 240–241. -/
def rowHashtags (t : Tweet) : List TagEntity :=
  (extHashtags t).getD t.entities.hashtags

/-- `load_tweets.py` lines 242–243. -/
def rowSymbols (t : Tweet) : List TagEntity :=
  (extSymbols t).getD t.entities.symbols

/-- `load_tweets.py` line 244. -/
def rowTags (t : Tweet) : List String :=
  (rowHashtags t).map (fun h => "#" ++ h.text)
    ++ (rowSymbols t).map (fun c => "$" ++ c.text)

/-- `load_tweets.py` lines 256–257. -/
def rowMedia (t : Tweet) : List MediaEntity :=
  match t.extended_tweet.bind ExtTweet.extended_entities_media with
  | some m => m
  | none => t.extended_entities_media.getD []

/-- `load_tweets_batch.py` lines 205–208: `try` the extended container,
`except KeyError` fall back — the same per-type resolution as the row
path. -/
def batchUrls (t : Tweet) : List UrlEntity :=
  match extUrls t with
  | some us => us
  | none => t.entities.urls

/-- `load_tweets_batch.py` lines 216–219. -/
def batchMentions (t : Tweet) : List MentionEntity :=
  match extMentions t with
  | some ms => ms
  | none => t.entities.user_mentions

/-- `load_tweets_batch.py` lines 232–237: hashtags and symbols are read
in one `try` block, so a `KeyError` on either falls back to the default
container for *both*. -/
def batchHashtagsSymbols (t : Tweet) : List TagEntity × List TagEntity :=
  match extHashtags t, extSymbols t with
  | some hs, some cs => (hs, cs)
  | _, _ => (t.entities.hashtags, t.entities.symbols)

/-! ## Concrete example records -/

def emptyEntities : Entities := ⟨[], [], [], []⟩

def sampleUser : TUser :=
  ⟨1, "2020-01-01", none, none, 0, 0, 0, 0, false, false, "sn", "nm",
    none, none, none⟩

/-- A record with a place bounding box (open ring) and `geo = null`. -/
def bboxTweet : Tweet :=
  ⟨100, sampleUser, "2020-01-01", "hello", none, emptyEntities, none,
    none,
    some ⟨"US", "San Francisco, CA", some ⟨[[(0, 0), (0, 1), (1, 1), (1, 0)]]⟩⟩,
    none, none, none, none, none, none, none, none, none, none, none⟩

/-- A record with direct point coordinates and no place. -/
def pointTweet : Tweet :=
  ⟨101, sampleUser, "2020-01-01", "hello", none, emptyEntities, none,
    some [3, 4], none,
    none, none, none, none, none, none, none, none, none, none, none⟩

/-- A record whose extended container has hashtags but neither urls nor
symbols. -/
def extHashTweet : Tweet :=
  ⟨102, sampleUser, "2020-01-01", "hello",
    some ⟨none, some ⟨none, none, some [⟨"exthash"⟩], none⟩, none⟩,
    ⟨[⟨"https://d.example"⟩], [], [⟨"defhash"⟩], []⟩, none,
    none, none,
    none, none, none, none, none, none, none, none, none, none, none⟩

/-! ## C1: location derivation -/

/-- Does the record have usable direct point coordinates? -/
def hasPointCoords (t : Tweet) : Bool :=
  match t.geo with
  | some (_ :: _ :: _) => true
  | _ => false

/-- First ring of the place bounding box, when each access succeeds. -/
def placeFirstRing (t : Tweet) : Option (List (Int × Int)) :=
  match t.place with
  | some p =>
    match p.bounding_box with
    | some bb =>
      match bb.coordinates with
      | r :: _ => some r
      | [] => none
    | none => none
  | none => none

/-- Ring closing: repeat the first vertex when first and last differ. -/
def closeRing (ring : List (Int × Int)) : List (Int × Int) :=
  match ring with
  | [] => []
  | p0 :: _ => if ring.getLast? ≠ some p0 then ring ++ [p0] else ring

/-- C1.  Claimed: *in both strategies* a record with a place bounding box
and no direct coordinates yields a polygon location.  False: the batch
strategy's polygon branch is omitted in the source
(`load_tweets_batch.py` lines 149–152 set `geo_str = None`), so such a
record gets a polygon in the row strategy but a null geometry in the
batch strategy. -/
theorem location_both_strategies_counterexample :
    rowGeoWkt bboxTweet
        = some (Wkt.polygon [(0, 0), (0, 1), (1, 1), (1, 0), (0, 0)]) ∧
      batchGeo bboxTweet = Except.ok (none, none) := by
  constructor
  · rfl
  · rfl

/-- With no usable direct coordinates, the row geometry is the polygon
of the closed first bounding-box ring (or nothing). -/
theorem rowGeoWkt_no_point (t : Tweet) (hpt : hasPointCoords t = false) :
    rowGeoWkt t =
      (match placeFirstRing t with
        | some (p0 :: ps) => some (Wkt.polygon (closeRing (p0 :: ps)))
        | _ => none) := by
  obtain ⟨i, u, ca, tx, et, en, em, geo, place, a1, a2, a3, a4, a5, a6,
    a7, a8, a9, a10, a11⟩ := t
  match geo with
  | some (x :: y :: rest) => simp [hasPointCoords] at hpt
  | none | some [] | some [x] =>
    match place with
    | none => rfl
    | some ⟨cc, fn, none⟩ => rfl
    | some ⟨cc, fn, some ⟨[]⟩⟩ => rfl
    | some ⟨cc, fn, some ⟨[] :: rs⟩⟩ => rfl
    | some ⟨cc, fn, some ⟨(p0 :: ps) :: rs⟩⟩ =>
      show (if (p0 :: ps).getLast? ≠ some p0 then
          some (Wkt.polygon ((p0 :: ps) ++ [p0]))
        else some (Wkt.polygon (p0 :: ps)))
        = some (Wkt.polygon (closeRing (p0 :: ps)))
      rw [closeRing]
      by_cases h : (p0 :: ps).getLast? ≠ some p0
      · rw [if_pos h, if_pos h]
      · rw [if_neg h, if_neg h]

/-- C1 (amended).  In the row strategy the location is: a point when
direct geo coordinates are present; otherwise a polygon built from the
first ring of the place bounding box, closed by repeating the first
vertex when first and last differ; otherwise no location.  In the batch
strategy the location is a point when direct geo coordinates are present
and otherwise absent — in particular a record with a place bounding box,
no direct coordinates, gets no location there. -/
theorem location_derivation (t : Tweet) :
    (∀ x y rest, t.geo = some (x :: y :: rest) →
        rowGeoWkt t = some (Wkt.point x y) ∧
        batchGeo t
          = Except.ok (some "POINT", some (toString x ++ " " ++ toString y))) ∧
    (hasPointCoords t = false →
      (∀ p0 ps, placeFirstRing t = some (p0 :: ps) →
          rowGeoWkt t = some (Wkt.polygon (closeRing (p0 :: ps)))) ∧
      ((placeFirstRing t = none ∨ placeFirstRing t = some []) →
          rowGeoWkt t = none)) ∧
    (t.geo = none → batchGeo t = Except.ok (none, none)) := by
  refine ⟨?_, ?_, ?_⟩
  · intro x y rest hgeo
    rw [rowGeoWkt, batchGeo, hgeo]
    exact ⟨rfl, rfl⟩
  · intro hpt
    rw [rowGeoWkt_no_point t hpt]
    constructor
    · intro p0 ps hring
      rw [hring]
    · intro hnone
      rcases hnone with h | h
      · rw [h]
      · rw [h]
  · intro hgeo
    rw [batchGeo, hgeo]

/-- C1 witness: the amended theorem applied to both concrete records
above — the point record gets a `POINT` in both strategies; the
bounding-box record (no direct coordinates) gets the closed polygon in
the row strategy and no location in the batch strategy. -/
theorem location_derivation_witness :
    (rowGeoWkt pointTweet = some (Wkt.point 3 4) ∧
        batchGeo pointTweet
          = Except.ok (some "POINT", some (toString (3 : Int) ++ " " ++ toString (4 : Int)))) ∧
      rowGeoWkt bboxTweet
        = some (Wkt.polygon (closeRing [(0, 0), (0, 1), (1, 1), (1, 0)])) ∧
      batchGeo bboxTweet = Except.ok (none, none) :=
  ⟨(location_derivation pointTweet).1 3 4 [] rfl,
    ((location_derivation bboxTweet).2.1 rfl).1 (0, 0) [(0, 1), (1, 1), (1, 0)] rfl,
    (location_derivation bboxTweet).2.2 rfl⟩

/-! ## C3: per-type entity container resolution -/

/-- C3.  Claimed: each of urls, mentions, hashtags, symbols resolves its
container independently in both strategies, extended used exactly when
present.  False for the batch strategy: hashtags and symbols are read in
a single `try` block, so a record whose extended container has hashtags
but no symbols uses the *default* hashtags there, although its extended
hashtags are present. -/
theorem entity_independence_counterexample :
    extHashtags extHashTweet = some [⟨"exthash"⟩] ∧
      batchHashtagsSymbols extHashTweet
        = (extHashTweet.entities.hashtags, extHashTweet.entities.symbols) ∧
      extHashTweet.entities.hashtags = [⟨"defhash"⟩] ∧
      ([⟨"defhash"⟩] : List TagEntity) ≠ [⟨"exthash"⟩] := by
  refine ⟨rfl, rfl, rfl, by decide⟩

/-- C3 (amended).  urls and mentions resolve independently in both
strategies, and hashtags and symbols resolve independently in the row
strategy — the extended container is used for a type exactly when that
type's extended container is present, so extended hashtags and default
urls can be used simultaneously.  In the batch strategy hashtags and
symbols resolve jointly: the extended containers are used for both
exactly when both are present, otherwise the default containers are used
for both. -/
theorem entity_container_resolution (t : Tweet) :
    (∀ us, extUrls t = some us → rowUrls t = us ∧ batchUrls t = us) ∧
    (extUrls t = none →
        rowUrls t = t.entities.urls ∧ batchUrls t = t.entities.urls) ∧
    (∀ ms, extMentions t = some ms →
        rowMentions t = ms ∧ batchMentions t = ms) ∧
    (extMentions t = none →
        rowMentions t = t.entities.user_mentions ∧
        batchMentions t = t.entities.user_mentions) ∧
    (∀ hs, extHashtags t = some hs → rowHashtags t = hs) ∧
    (extHashtags t = none → rowHashtags t = t.entities.hashtags) ∧
    (∀ cs, extSymbols t = some cs → rowSymbols t = cs) ∧
    (extSymbols t = none → rowSymbols t = t.entities.symbols) ∧
    (∀ hs cs, extHashtags t = some hs → extSymbols t = some cs →
        batchHashtagsSymbols t = (hs, cs)) ∧
    (extHashtags t = none ∨ extSymbols t = none →
        batchHashtagsSymbols t = (t.entities.hashtags, t.entities.symbols)) := by
  refine ⟨?_, ?_, ?_, ?_, ?_, ?_, ?_, ?_, ?_, ?_⟩
  · intro us h
    rw [rowUrls, batchUrls, h]
    exact ⟨rfl, rfl⟩
  · intro h
    rw [rowUrls, batchUrls, h]
    exact ⟨rfl, rfl⟩
  · intro ms h
    rw [rowMentions, batchMentions, h]
    exact ⟨rfl, rfl⟩
  · intro h
    rw [rowMentions, batchMentions, h]
    exact ⟨rfl, rfl⟩
  · intro hs h
    rw [rowHashtags, h]
    rfl
  · intro h
    rw [rowHashtags, h]
    rfl
  · intro cs h
    rw [rowSymbols, h]
    rfl
  · intro h
    rw [rowSymbols, h]
    rfl
  · intro hs cs hh hc
    rw [batchHashtagsSymbols, hh, hc]
  · intro h
    rw [batchHashtagsSymbols]
    rcases h with h | h
    · rw [h]
    · rw [h]
      match extHashtags t with
      | some hs => rfl
      | none => rfl

/-- C3 witness: the amended theorem at the concrete record with extended
hashtags, no extended urls and no extended symbols — the row strategy
uses extended hashtags and default urls simultaneously; the batch
strategy falls back to default hashtags and symbols. -/
theorem entity_container_resolution_witness :
    rowHashtags extHashTweet = [⟨"exthash"⟩] ∧
      rowUrls extHashTweet = extHashTweet.entities.urls ∧
      batchHashtagsSymbols extHashTweet
        = (extHashTweet.entities.hashtags, extHashTweet.entities.symbols) :=
  ⟨(entity_container_resolution extHashTweet).2.2.2.2.1 [⟨"exthash"⟩] rfl,
    ((entity_container_resolution extHashTweet).2.1 rfl).1,
    (entity_container_resolution extHashTweet).2.2.2.2.2.2.2.2.2 (Or.inr rfl)⟩

/-! ## C5: country and state code derivation -/

/-- Characterization of the row state-code computation when a place is
present. -/
theorem rowStateCode_char (cc fn : String) (bb : Option BoundingBox)
    (t : Tweet) (hp : t.place = some ⟨cc, fn, bb⟩) :
    rowStateCode t =
      (if pyLower cc = "us" ∧ (stateCandidate fn).length ≤ 2
        then some (stateCandidate fn)
        else none) := by
  have hcc : rowCountryCode t = some (pyLower cc) := by
    rw [rowCountryCode, hp]
    rfl
  rw [rowStateCode, hcc, hp]
  by_cases hus : pyLower cc = "us"
  · rw [if_pos (by rw [hus])]
    show (if (stateCandidate fn).length ≤ 2
        then some (stateCandidate fn)
        else none) = _
    by_cases hsc : (stateCandidate fn).length ≤ 2
    · rw [if_pos hsc, if_pos ⟨hus, hsc⟩]
    · rw [if_neg hsc, if_neg (fun h => hsc h.2)]
  · rw [if_neg (fun h => hus (Option.some.inj h)),
      if_neg (fun h => hus h.1)]

/-- C5.  For every record with a place, the derived country code is the
lower-cased place country code, and the state code is the lower-cased
trimmed final comma-delimited component of the place full name exactly
when the country code is `us` and that component has at most two
characters; with no place both are absent.  Both strategies derive them
identically. -/
theorem country_state_derivation (t : Tweet) :
    (∀ p, t.place = some p →
        rowCountryCode t = some (pyLower p.country_code) ∧
        rowStateCode t =
          (if pyLower p.country_code = "us" ∧
              (stateCandidate p.full_name).length ≤ 2
            then some (stateCandidate p.full_name)
            else none)) ∧
    (t.place = none → rowCountryCode t = none ∧ rowStateCode t = none) ∧
    batchCountryCode t = rowCountryCode t ∧
    batchStateCode t = rowStateCode t := by
  refine ⟨?_, ?_, rfl, rfl⟩
  · intro p hp
    obtain ⟨cc, fn, bb⟩ := p
    exact ⟨by rw [rowCountryCode, hp]; rfl, rowStateCode_char cc fn bb t hp⟩
  · intro hp
    have hcc : rowCountryCode t = none := by
      rw [rowCountryCode, hp]
      rfl
    refine ⟨hcc, ?_⟩
    rw [rowStateCode, hcc]
    rw [if_neg (by simp)]

/-- C5 witness: a place with `country_code = "US"`,
`full_name = "San Francisco, CA"` derives `country_code = "us"` and
`state_code = "ca"` (the spec's own example). -/
theorem country_state_derivation_witness :
    rowCountryCode bboxTweet = some "us" ∧
      rowStateCode bboxTweet = some "ca" := by
  obtain ⟨h1, h2⟩ := (country_state_derivation bboxTweet).1
    ⟨"US", "San Francisco, CA", some ⟨[[(0, 0), (0, 1), (1, 1), (1, 0)]]⟩⟩ rfl
  refine ⟨?_, ?_⟩
  · rw [h1]
    decide
  · rw [h2]
    decide

/-! ## C6: body text selection -/

/-- C6.  The normalized body text is the extended `full_text` when
present and the default `text` otherwise, in both strategies — each then
passes the selected text through its own NUL sanitizer. -/
theorem body_text_selection (t : Tweet) :
    (∀ ft, extFullText t = some ft →
        rowBodyText t = stripNulls ft ∧ batchBodyText t = escNulls ft) ∧
    (extFullText t = none →
        rowBodyText t = stripNulls t.text ∧
        batchBodyText t = escNulls t.text) := by
  constructor
  · intro ft h
    rw [rowBodyText, batchBodyText, h]
    exact ⟨rfl, rfl⟩
  · intro h
    rw [rowBodyText, batchBodyText, h]
    exact ⟨rfl, rfl⟩

/-- A record carrying both a truncated `text` and extended `full_text`
(the spec's selection example). -/
def bothTextTweet : Tweet :=
  ⟨103, sampleUser, "2020-01-01", "short",
    some ⟨some "short with more", none, none⟩, emptyEntities, none,
    none, none,
    none, none, none, none, none, none, none, none, none, none, none⟩

/-- C6 witness: with both fields present the extended text is selected;
at `bboxTweet` (no extended container) the default text is selected. -/
theorem body_text_selection_witness :
    (rowBodyText bothTextTweet = stripNulls "short with more" ∧
        batchBodyText bothTextTweet = escNulls "short with more") ∧
      rowBodyText bboxTweet = stripNulls "hello" ∧
      batchBodyText bboxTweet = escNulls "hello" :=
  ⟨(body_text_selection bothTextTweet).1 "short with more" rfl,
    (body_text_selection bboxTweet).2 rfl⟩

/-! ## C4: the grouped-insert builder

`load_tweets_batch.py` lines 59–92.  A row is the association list of a
Python dict (keys unique); values are opaque (`α`).  `Except.error`
models the `ValueError` raised before any statement is executed;
`bulk_insert` returning `Except.ok none` models its early `return` for
an empty row list (no statement executed), `Except.ok (some s)` the
execution of the single generated statement `s`. -/

/-- Python `set(k1) == set(k2)` on key lists. -/
def keySetEq (k1 k2 : List String) : Bool :=
  k1.all (fun k => decide (k ∈ k2)) && k2.all (fun k => decide (k ∈ k1))

/-- The whitespace-normalized SQL text produced by `_bulk_insert_sql`
(the source builds it with an f-string and then `' '.join(sql.split())`;
this is that normal form, exact when `table` and the keys contain no
whitespace). -/
def bulkSql (table : String) (keys : List String) (n : Nat) : String :=
  "INSERT INTO " ++ table ++ " (" ++ String.intercalate "," keys
    ++ ") VALUES "
    ++ String.intercalate ","
        ((List.range n).map (fun i =>
          "(" ++ String.intercalate ","
              (keys.map (fun k => ":" ++ k ++ toString i)) ++ ")"))
    ++ " ON CONFLICT DO NOTHING"

/-- The bind mapping
`{key + str(i): value for i, row in enumerate(rows) for key, value in row.items()}`,
as an association list. -/
def bulkBinds (rows : List (List (String × α))) : List (String × α) :=
  (rows.enum.map
    (fun ir => ir.2.map (fun kv => (kv.1 ++ toString ir.1, kv.2)))).flatten

/-- `_bulk_insert_sql` of `load_tweets_batch.py` lines 59–82: raise on an
empty row list; raise when some row's key set differs from the first
row's; otherwise produce the statement text (column list iterated from
the key set — modelled as the deduplicated first-row key list) and the
binds. -/
def bulk_insert_sql (table : String) (rows : List (List (String × α))) :
    Except String (String × List (String × α)) :=
  match rows with
  | [] => Except.error "Must be at least one dictionary in the rows variable"
  | r0 :: rest =>
    if (r0 :: rest).all (fun r => keySetEq (r.map Prod.fst) (r0.map Prod.fst))
    then
      Except.ok
        (bulkSql table ((r0.map Prod.fst).dedup) (r0 :: rest).length,
          bulkBinds (r0 :: rest))
    else Except.error "All dictionaries must contain the same keys"

/-- `bulk_insert` of `load_tweets_batch.py` lines 85–92: return silently
on zero rows, otherwise build the statement (propagating its
`ValueError`) and execute it. -/
def bulk_insert (table : String) (rows : List (List (String × α))) :
    Except String (Option (String × List (String × α))) :=
  if rows.length = 0 then Except.ok none
  else (bulk_insert_sql table rows).map some

theorem keySetEq_mem {k1 k2 : List String} (h : keySetEq k1 k2 = true) :
    ∀ k ∈ k1, k ∈ k2 := by
  rw [keySetEq, Bool.and_eq_true, List.all_eq_true, List.all_eq_true] at h
  intro k hk
  have := h.1 k hk
  simpa using this

/-- C4.  An empty or heterogeneous row-set makes the builder raise
before any execution (and `bulk_insert` issues no statement); for a
homogeneous non-empty row-set the builder succeeds and no field of any
row is dropped: every key appears in the generated column list and every
`(key + index, value)` pair of every row appears in the binds. -/
theorem grouped_insert_builder (table : String)
    (rows : List (List (String × α))) :
    (rows = [] →
        bulk_insert_sql table rows
          = Except.error "Must be at least one dictionary in the rows variable" ∧
        bulk_insert table rows = Except.ok none) ∧
    (∀ r0 rest, rows = r0 :: rest →
      ((∃ r ∈ rows, keySetEq (r.map Prod.fst) (r0.map Prod.fst) = false) →
          bulk_insert_sql table rows
            = Except.error "All dictionaries must contain the same keys" ∧
          bulk_insert table rows
            = Except.error "All dictionaries must contain the same keys") ∧
      ((∀ r ∈ rows, keySetEq (r.map Prod.fst) (r0.map Prod.fst) = true) →
        bulk_insert_sql table rows
          = Except.ok
              (bulkSql table ((r0.map Prod.fst).dedup) rows.length,
                bulkBinds rows) ∧
        (∀ r ∈ rows, ∀ kv ∈ r, kv.1 ∈ (r0.map Prod.fst).dedup) ∧
        (∀ ir ∈ rows.enum, ∀ kv ∈ ir.2,
            (kv.1 ++ toString ir.1, kv.2) ∈ bulkBinds rows))) := by
  constructor
  · intro h
    subst h
    exact ⟨rfl, rfl⟩
  · intro r0 rest h
    subst h
    constructor
    · intro ⟨r, hr, hfalse⟩
      have hall : ((r0 :: rest).all
          (fun r => keySetEq (r.map Prod.fst) (r0.map Prod.fst))) = false := by
        rw [List.all_eq_false]
        exact ⟨r, hr, by rw [hfalse]; decide⟩
      constructor
      · rw [bulk_insert_sql, hall]
        rfl
      · rw [bulk_insert, if_neg (by simp),
          bulk_insert_sql, hall]
        rfl
    · intro hall
      have hall' : ((r0 :: rest).all
          (fun r => keySetEq (r.map Prod.fst) (r0.map Prod.fst))) = true :=
        List.all_eq_true.mpr hall
      refine ⟨by rw [bulk_insert_sql, hall']; rfl, ?_, ?_⟩
      · intro r hr kv hkv
        rw [List.mem_dedup]
        exact keySetEq_mem (hall r hr) kv.1 (List.mem_map_of_mem Prod.fst hkv)
      · intro ir hir kv hkv
        rw [bulkBinds, List.mem_flatten]
        exact ⟨ir.2.map (fun kv => (kv.1 ++ toString ir.1, kv.2)),
          List.mem_map_of_mem _ hir,
          List.mem_map_of_mem _ hkv⟩

/-- C4 witness: the builder at concrete inputs — a homogeneous two-row
set succeeds (with its full column list and binds), the empty set and a
heterogeneous set raise. -/
theorem grouped_insert_builder_witness :
    (bulk_insert_sql "users" [[("a", (1 : Int)), ("b", 2)], [("b", 3), ("a", 4)]]
        = Except.ok
            (bulkSql "users"
              ((([("a", (1 : Int)), ("b", 2)]).map Prod.fst).dedup) 2,
              bulkBinds [[("a", (1 : Int)), ("b", 2)], [("b", 3), ("a", 4)]])) ∧
      bulk_insert_sql "users" ([] : List (List (String × Int)))
        = Except.error "Must be at least one dictionary in the rows variable" ∧
      bulk_insert_sql "users" [[("a", (1 : Int))], [("b", 2)]]
        = Except.error "All dictionaries must contain the same keys" :=
  ⟨(((grouped_insert_builder "users" _).2 _ _ rfl).2 (by decide)).1,
    ((grouped_insert_builder "users" ([] : List (List (String × Int)))).1 rfl).1,
    (((grouped_insert_builder "users" _).2 _ _ rfl).1
      ⟨[("b", (2 : Int))], by decide, by decide⟩).1⟩

/-! ## C7: the strict-mode recursive sanitizer `clean_dict`

`load_tweets.py` lines 56–64.  Values produced by `json.loads` are
mappings, sequences, strings, or scalars; the mutual inductive below is
that value space (numeric leaves abstracted as `Int`, which `clean_dict`
passes through untouched in any case).  `clean_dict` is total by
structural recursion. -/

mutual
inductive Jv : Type where
  | jnull : Jv
  | jbool : Bool → Jv
  | jint : Int → Jv
  | jstr : String → Jv
  | jarr : Jarr → Jv
  | jobj : Jobj → Jv
inductive Jarr : Type where
  | anil : Jarr
  | acons : Jv → Jarr → Jarr
inductive Jobj : Type where
  | onil : Jobj
  | ocons : String → Jv → Jobj → Jobj
end

mutual
/-- `clean_dict`: rebuild mappings over cleaned values (keys untouched),
rebuild sequences over cleaned elements, strip NULs from strings, return
anything else unchanged. -/
def cleanV : Jv → Jv
  | .jstr s => .jstr (stripNulls s)
  | .jarr a => .jarr (cleanA a)
  | .jobj o => .jobj (cleanO o)
  | v => v
def cleanA : Jarr → Jarr
  | .anil => .anil
  | .acons v a => .acons (cleanV v) (cleanA a)
def cleanO : Jobj → Jobj
  | .onil => .onil
  | .ocons k v o => .ocons k (cleanV v) (cleanO o)
end

mutual
/-- Structure skeleton: blank every string leaf, keep everything else
(keys, order, counts, non-string leaves). -/
def eraseV : Jv → Jv
  | .jstr _ => .jstr ""
  | .jarr a => .jarr (eraseA a)
  | .jobj o => .jobj (eraseO o)
  | v => v
def eraseA : Jarr → Jarr
  | .anil => .anil
  | .acons v a => .acons (eraseV v) (eraseA a)
def eraseO : Jobj → Jobj
  | .onil => .onil
  | .ocons k v o => .ocons k (eraseV v) (eraseO o)
end

mutual
/-- In-order list of the string leaves of a value. -/
def stringsV : Jv → List String
  | .jstr s => [s]
  | .jarr a => stringsA a
  | .jobj o => stringsO o
  | _ => []
def stringsA : Jarr → List String
  | .anil => []
  | .acons v a => stringsV v ++ stringsA a
def stringsO : Jobj → List String
  | .onil => []
  | .ocons _ v o => stringsV v ++ stringsO o
end

mutual
theorem cleanV_shape : ∀ v : Jv, eraseV (cleanV v) = eraseV v
  | .jnull => rfl
  | .jbool _ => rfl
  | .jint _ => rfl
  | .jstr _ => rfl
  | .jarr a => congrArg Jv.jarr (cleanA_shape a)
  | .jobj o => congrArg Jv.jobj (cleanO_shape o)
theorem cleanA_shape : ∀ a : Jarr, eraseA (cleanA a) = eraseA a
  | .anil => rfl
  | .acons v a => by
    rw [cleanA, eraseA, eraseA, cleanV_shape v, cleanA_shape a]
theorem cleanO_shape : ∀ o : Jobj, eraseO (cleanO o) = eraseO o
  | .onil => rfl
  | .ocons k v o => by
    rw [cleanO, eraseO, eraseO, cleanV_shape v, cleanO_shape o]
end

mutual
theorem cleanV_strings :
    ∀ v : Jv, stringsV (cleanV v) = (stringsV v).map stripNulls
  | .jnull => rfl
  | .jbool _ => rfl
  | .jint _ => rfl
  | .jstr _ => rfl
  | .jarr a => cleanA_strings a
  | .jobj o => cleanO_strings o
theorem cleanA_strings :
    ∀ a : Jarr, stringsA (cleanA a) = (stringsA a).map stripNulls
  | .anil => rfl
  | .acons v a => by
    rw [cleanA, stringsA, stringsA, cleanV_strings v, cleanA_strings a,
      List.map_append]
theorem cleanO_strings :
    ∀ o : Jobj, stringsO (cleanO o) = (stringsO o).map stripNulls
  | .onil => rfl
  | .ocons k v o => by
    rw [cleanO, stringsO, stringsO, cleanV_strings v, cleanO_strings o,
      List.map_append]
end

/-- C7.  The strict-mode sanitizer returns a structurally identical
value — same skeleton, keys, order, counts and non-string leaves (the
skeletons after blanking string leaves agree) — whose string leaves are,
in order, exactly the NUL-stripped input leaves; hence every output
string contains no NUL and is at most as long as its source leaf.  It is
total (structural recursion), hence succeeds on every input. -/
theorem clean_dict_strict (v : Jv) :
    eraseV (cleanV v) = eraseV v ∧
      stringsV (cleanV v) = (stringsV v).map stripNulls ∧
      ∀ s ∈ stringsV (cleanV v), nulChar ∉ s.data ∧
        ∃ s0 ∈ stringsV v, s = stripNulls s0 ∧ s.length ≤ s0.length := by
  refine ⟨cleanV_shape v, cleanV_strings v, ?_⟩
  intro s hs
  rw [cleanV_strings v] at hs
  obtain ⟨s0, hs0, rfl⟩ := List.mem_map.mp hs
  refine ⟨stripNullsL_no_nul s0.data, s0, hs0, rfl, ?_⟩
  exact stripNullsL_length_le s0.data

/-- A small nested value: a mapping with a NUL-carrying string leaf and
an integer leaf. -/
def exObj : Jv :=
  .jobj (.ocons "k" (.jstr "a\x00b") (.ocons "n" (.jint 5) .onil))

/-- C7 witness: the theorem applied to `exObj` and the string leaf of
its sanitized form. -/
theorem clean_dict_strict_witness :
    nulChar ∉ (stripNulls "a\x00b").data ∧
      ∃ s0 ∈ stringsV exObj, stripNulls "a\x00b" = stripNulls s0 ∧
        (stripNulls "a\x00b").length ≤ s0.length :=
  (clean_dict_strict exObj).2.2 (stripNulls "a\x00b")
    (by simp [exObj, cleanV, cleanO, stringsV, stringsO])

/-! ## C8: the row-strategy `insert_tweet` as a state machine

`load_tweets.py` lines 66–265.  The store is a record of relations; a
conflict-tolerant insert appends unless a row with the same primary key
exists (`users` keyed by `id_users`, `tweets` by `id_tweets`, `urls` by
the url string with the surrogate id being the list index, association
relations by the whole tuple).  Every executed statement leaves an entry
in an effect trace: `checkExists` for the existence pre-check,
`beginTxn` for opening the transaction, `execIns`/`execSel` for each
INSERT/SELECT sent to the store. -/

structure UserRow where
  id_users : Int
  created_at : Option String
  updated_at : Option String
  url : Option Nat
  friends_count : Option Int
  listed_count : Option Int
  favourites_count : Option Int
  statuses_count : Option Int
  protected_flag : Option Bool
  verified : Option Bool
  screen_name : Option String
  name : Option String
  location : Option String
  description : Option String
  withheld_in_countries : Option (List String)
deriving DecidableEq

structure TweetRow where
  id_tweets : Int
  id_users : Int
  created_at : String
  in_reply_to_status_id : Option Int
  in_reply_to_user_id : Option Int
  quoted_status_id : Option Int
  retweet_count : Int
  favorite_count : Int
  quote_count : Int
  withheld_copyright : Bool
  withheld_in_countries : List String
  source : Option String
  text : String
  country_code : Option String
  state_code : Option String
  lang : Option String
  place_name : Option String
  geo : Option Wkt
deriving DecidableEq

structure Db where
  urls : List String
  users : List UserRow
  tweets : List TweetRow
  tweet_urls : List (Int × Nat)
  tweet_mentions : List (Int × Int)
  tweet_tags : List (Int × String)
  tweet_media : List (Int × Nat × String)
deriving DecidableEq

inductive Eff where
  | checkExists
  | beginTxn
  | execIns (table : String)
  | execSel (table : String)
deriving DecidableEq

/-- `get_id_urls` (`load_tweets.py` lines 32–54): conflict-free insert
of the url — fresh surrogate id when absent — else fall back to
selecting the existing id. -/
def get_id_urls (url : String) (db : Db) : Db × Nat × List Eff :=
  match db.urls.findIdx? (fun u => u == url) with
  | some i => (db, i, [Eff.execIns "urls", Eff.execSel "urls"])
  | none =>
    ({ db with urls := db.urls ++ [url] }, db.urls.length,
      [Eff.execIns "urls"])

/-- `INSERT INTO users … ON CONFLICT DO NOTHING`. -/
def insertUserRow (db : Db) (r : UserRow) : Db :=
  if db.users.any (fun u => u.id_users == r.id_users) then db
  else { db with users := db.users ++ [r] }

/-- `INSERT INTO tweets … ON CONFLICT DO NOTHING`. -/
def insertTweetRow (db : Db) (r : TweetRow) : Db :=
  if db.tweets.any (fun tr => tr.id_tweets == r.id_tweets) then db
  else { db with tweets := db.tweets ++ [r] }

def insertTweetUrlRow (db : Db) (r : Int × Nat) : Db :=
  if db.tweet_urls.contains r then db
  else { db with tweet_urls := db.tweet_urls ++ [r] }

def insertTweetMentionRow (db : Db) (r : Int × Int) : Db :=
  if db.tweet_mentions.contains r then db
  else { db with tweet_mentions := db.tweet_mentions ++ [r] }

def insertTweetTagRow (db : Db) (r : Int × String) : Db :=
  if db.tweet_tags.contains r then db
  else { db with tweet_tags := db.tweet_tags ++ [r] }

def insertTweetMediaRow (db : Db) (r : Int × Nat × String) : Db :=
  if db.tweet_media.contains r then db
  else { db with tweet_media := db.tweet_media ++ [r] }

/-- `INSERT INTO users (id_users) VALUES (:id)` — the id-only stub. -/
def stubUser (i : Int) : UserRow :=
  ⟨i, none, none, none, none, none, none, none, none, none, none, none,
    none, none, none⟩

/-- Typed form of `tweet = clean_dict(tweet)` at `load_tweets.py`
line 79: strip NULs from every string leaf of the record. -/
def cleanUser (u : TUser) : TUser :=
  ⟨u.id, stripNulls u.created_at, u.updated_at.map stripNulls,
    u.url.map stripNulls, u.friends_count, u.listed_count,
    u.favourites_count, u.statuses_count, u.protected_flag, u.verified,
    stripNulls u.screen_name, stripNulls u.name,
    u.location.map stripNulls, u.description.map stripNulls,
    u.withheld_in_countries.map (fun l => l.map stripNulls)⟩

def cleanMediaEntity (m : MediaEntity) : MediaEntity :=
  ⟨stripNulls m.media_url, stripNulls m.kind⟩

def cleanEntities (e : Entities) : Entities :=
  ⟨e.urls.map (fun u => ⟨stripNulls u.expanded_url⟩),
    e.user_mentions.map
      (fun m => ⟨m.id, stripNulls m.name, stripNulls m.screen_name⟩),
    e.hashtags.map (fun h => ⟨stripNulls h.text⟩),
    e.symbols.map (fun c => ⟨stripNulls c.text⟩)⟩

def cleanExtEntities (e : ExtEntities) : ExtEntities :=
  ⟨e.urls.map (List.map (fun u => ⟨stripNulls u.expanded_url⟩)),
    e.user_mentions.map
      (List.map (fun m => ⟨m.id, stripNulls m.name, stripNulls m.screen_name⟩)),
    e.hashtags.map (List.map (fun h => ⟨stripNulls h.text⟩)),
    e.symbols.map (List.map (fun c => ⟨stripNulls c.text⟩))⟩

def cleanExtTweet (et : ExtTweet) : ExtTweet :=
  ⟨et.full_text.map stripNulls, et.entities.map cleanExtEntities,
    et.extended_entities_media.map (List.map cleanMediaEntity)⟩

def cleanPlace (p : Place) : Place :=
  ⟨stripNulls p.country_code, stripNulls p.full_name, p.bounding_box⟩

def cleanTweet (t : Tweet) : Tweet :=
  ⟨t.id, cleanUser t.user, stripNulls t.created_at, stripNulls t.text,
    t.extended_tweet.map cleanExtTweet, cleanEntities t.entities,
    t.extended_entities_media.map (List.map cleanMediaEntity),
    t.geo, t.place.map cleanPlace, t.in_reply_to_status_id,
    t.in_reply_to_user_id, t.in_reply_to_screen_name.map stripNulls,
    t.quoted_status_id, t.retweet_count, t.favorite_count,
    t.quote_count, t.withheld_copyright,
    t.withheld_in_countries.map (List.map stripNulls),
    t.source.map stripNulls, t.lang.map stripNulls⟩

/-- The `for u in urls` loop, `load_tweets.py` lines 208–215. -/
def insertUrlsLoop (tid : Int) (us : List UrlEntity) (db : Db) :
    Db × List Eff :=
  match us with
  | [] => (db, [])
  | u :: rest =>
    let g := get_id_urls u.expanded_url db
    let db2 := insertTweetUrlRow g.1 (tid, g.2.1)
    let r := insertUrlsLoop tid rest db2
    (r.1, g.2.2 ++ [Eff.execIns "tweet_urls"] ++ r.2)

/-- The `for m in mentions` loop, `load_tweets.py` lines 222–235. -/
def insertMentionsLoop (tid : Int) (ms : List MentionEntity) (db : Db) :
    Db × List Eff :=
  match ms with
  | [] => (db, [])
  | m :: rest =>
    let db1 := insertUserRow db (stubUser m.id)
    let db2 := insertTweetMentionRow db1 (tid, m.id)
    let r := insertMentionsLoop tid rest db2
    (r.1, [Eff.execIns "users", Eff.execIns "tweet_mentions"] ++ r.2)

/-- The `for tag in tags` loop, `load_tweets.py` lines 245–251. -/
def insertTagsLoop (tid : Int) (tags : List String) (db : Db) :
    Db × List Eff :=
  match tags with
  | [] => (db, [])
  | tg :: rest =>
    let db1 := insertTweetTagRow db (tid, tg)
    let r := insertTagsLoop tid rest db1
    (r.1, [Eff.execIns "tweet_tags"] ++ r.2)

/-- The `for m in media` loop, `load_tweets.py` lines 258–265. -/
def insertMediaLoop (tid : Int) (ms : List MediaEntity) (db : Db) :
    Db × List Eff :=
  match ms with
  | [] => (db, [])
  | m :: rest =>
    let g := get_id_urls m.media_url db
    let db2 := insertTweetMediaRow g.1 (tid, g.2.1, m.kind)
    let r := insertMediaLoop tid rest db2
    (r.1, g.2.2 ++ [Eff.execIns "tweet_media"] ++ r.2)

/-- `insert_tweet` (`load_tweets.py` lines 66–265): existence pre-check
with early return, then — inside one transaction — user-url resolution,
user upsert, reply-stub insert (the Python truthiness test
`if tweet.get('in_reply_to_user_id'):` is false for both `None` and
`0`), tweet insert, and the four association loops. -/
def insert_tweet (db : Db) (t : Tweet) : Db × List Eff :=
  if db.tweets.any (fun r => r.id_tweets == t.id) then
    (db, [Eff.checkExists])
  else
    let tw := cleanTweet t
    let r1 : Db × Option Nat × List Eff :=
      match tw.user.url with
      | none => (db, none, [])
      | some u =>
        let g := get_id_urls u db
        (g.1, some g.2.1, g.2.2)
    let db2 := insertUserRow r1.1
      ⟨tw.user.id, some tw.user.created_at, tw.user.updated_at,
        r1.2.1, some tw.user.friends_count, some tw.user.listed_count,
        some tw.user.favourites_count, some tw.user.statuses_count,
        some tw.user.protected_flag, some tw.user.verified,
        some tw.user.screen_name, some tw.user.name, tw.user.location,
        tw.user.description,
        some (tw.user.withheld_in_countries.getD [])⟩
    let r3 : Db × List Eff :=
      match tw.in_reply_to_user_id with
      | some i =>
        if i ≠ 0 then
          (insertUserRow db2 (stubUser i), [Eff.execIns "users"])
        else (db2, [])
      | none => (db2, [])
    let db4 := insertTweetRow r3.1
      ⟨tw.id, tw.user.id, tw.created_at, tw.in_reply_to_status_id,
        tw.in_reply_to_user_id, tw.quoted_status_id,
        tw.retweet_count.getD 0, tw.favorite_count.getD 0,
        tw.quote_count.getD 0, tw.withheld_copyright.getD false,
        tw.withheld_in_countries.getD [], tw.source,
        rowBodyText tw, rowCountryCode tw, rowStateCode tw, tw.lang,
        tw.place.map Place.full_name, rowGeoWkt tw⟩
    let r5 := insertUrlsLoop tw.id (rowUrls tw) db4
    let r6 := insertMentionsLoop tw.id (rowMentions tw) r5.1
    let r7 := insertTagsLoop tw.id (rowTags tw) r6.1
    let r8 := insertMediaLoop tw.id (rowMedia tw) r7.1
    (r8.1,
      [Eff.checkExists, Eff.beginTxn] ++ r1.2.2 ++ [Eff.execIns "users"]
        ++ r3.2 ++ [Eff.execIns "tweets"] ++ r5.2 ++ r6.2 ++ r7.2 ++ r8.2)

theorem get_id_urls_tweets (url : String) (db : Db) :
    (get_id_urls url db).1.tweets = db.tweets := by
  cases hfi : db.urls.findIdx? (fun u => u == url) <;>
    simp [get_id_urls, hfi]

theorem insertUserRow_tweets (db : Db) (r : UserRow) :
    (insertUserRow db r).tweets = db.tweets := by
  rw [insertUserRow]
  split <;> rfl

theorem insertTweetUrlRow_tweets (db : Db) (r : Int × Nat) :
    (insertTweetUrlRow db r).tweets = db.tweets := by
  rw [insertTweetUrlRow]
  split <;> rfl

theorem insertTweetMentionRow_tweets (db : Db) (r : Int × Int) :
    (insertTweetMentionRow db r).tweets = db.tweets := by
  rw [insertTweetMentionRow]
  split <;> rfl

theorem insertTweetTagRow_tweets (db : Db) (r : Int × String) :
    (insertTweetTagRow db r).tweets = db.tweets := by
  rw [insertTweetTagRow]
  split <;> rfl

theorem insertTweetMediaRow_tweets (db : Db) (r : Int × Nat × String) :
    (insertTweetMediaRow db r).tweets = db.tweets := by
  rw [insertTweetMediaRow]
  split <;> rfl

theorem insertUrlsLoop_tweets (tid : Int) (us : List UrlEntity) (db : Db) :
    (insertUrlsLoop tid us db).1.tweets = db.tweets := by
  induction us generalizing db with
  | nil => rfl
  | cons u rest ih =>
    rw [insertUrlsLoop]
    simp only []
    rw [ih, insertTweetUrlRow_tweets, get_id_urls_tweets]

theorem insertMentionsLoop_tweets (tid : Int) (ms : List MentionEntity)
    (db : Db) : (insertMentionsLoop tid ms db).1.tweets = db.tweets := by
  induction ms generalizing db with
  | nil => rfl
  | cons m rest ih =>
    rw [insertMentionsLoop]
    simp only []
    rw [ih, insertTweetMentionRow_tweets, insertUserRow_tweets]

theorem insertTagsLoop_tweets (tid : Int) (tags : List String) (db : Db) :
    (insertTagsLoop tid tags db).1.tweets = db.tweets := by
  induction tags generalizing db with
  | nil => rfl
  | cons tg rest ih =>
    rw [insertTagsLoop]
    simp only []
    rw [ih, insertTweetTagRow_tweets]

theorem insertMediaLoop_tweets (tid : Int) (ms : List MediaEntity)
    (db : Db) : (insertMediaLoop tid ms db).1.tweets = db.tweets := by
  induction ms generalizing db with
  | nil => rfl
  | cons m rest ih =>
    rw [insertMediaLoop]
    simp only []
    rw [ih, insertTweetMediaRow_tweets, get_id_urls_tweets]

theorem insertTweetRow_mem (db : Db) (r : TweetRow) :
    ((insertTweetRow db r).tweets.any
      (fun tr => tr.id_tweets == r.id_tweets)) = true := by
  rw [insertTweetRow]
  split
  · assumption
  · simp [List.any_append]

/-- After `insert_tweet`, a tweet row with the record's id exists. -/
theorem insert_tweet_mem (db : Db) (t : Tweet) :
    ((insert_tweet db t).1.tweets.any
      (fun r => r.id_tweets == t.id)) = true := by
  by_cases hc : (db.tweets.any (fun r => r.id_tweets == t.id)) = true
  · rw [insert_tweet, if_pos hc]
    exact hc
  · rw [insert_tweet, if_neg hc]
    simp only []
    rw [insertMediaLoop_tweets, insertTagsLoop_tweets,
      insertMentionsLoop_tweets, insertUrlsLoop_tweets]
    exact insertTweetRow_mem _ _

/-- C8.  If the record's id already exists in the store the row strategy
returns right after the existence check: the state is unchanged and the
trace holds nothing but that check — no transaction, no insert of any
kind.  Consequently loading the same record twice leaves exactly the
state of loading it once. -/
theorem insert_tweet_skip_idempotent (db : Db) (t : Tweet) :
    ((∃ r ∈ db.tweets, r.id_tweets = t.id) →
        insert_tweet db t = (db, [Eff.checkExists])) ∧
      (insert_tweet (insert_tweet db t).1 t).1 = (insert_tweet db t).1 := by
  constructor
  · intro ⟨r, hr, hid⟩
    have hc : (db.tweets.any (fun r => r.id_tweets == t.id)) = true := by
      rw [List.any_eq_true]
      exact ⟨r, hr, by rw [hid]; exact beq_self_eq_true t.id⟩
    rw [insert_tweet, if_pos hc]
  · rw [insert_tweet, if_pos (insert_tweet_mem db t)]

/-- A store already holding the example record's tweet row. -/
def row0 : TweetRow :=
  ⟨100, 1, "2020-01-01", none, none, none, 0, 0, 0, false, [], none,
    "hello", none, none, none, none, none⟩

def db0 : Db := ⟨[], [], [row0], [], [], [], []⟩

/-- C8 witness: on `db0`, which already holds id 100, loading
`bboxTweet` (id 100) is state-preserving and performs only the existence
check. -/
theorem insert_tweet_skip_idempotent_witness :
    insert_tweet db0 bboxTweet = (db0, [Eff.checkExists]) :=
  (insert_tweet_skip_idempotent db0 bboxTweet).1
    ⟨row0, by decide, by decide⟩

/-! ## C10: the sanitizer copies; ring closing mutates only the copy

`insert_tweet` rebinds `tweet = clean_dict(tweet)` (line 79) and later
mutates a ring list in place (`ring.append(ring[0])`, lines 132–134).
To state that the *caller's* record value is unaffected, Python's object
graph is modelled explicitly: immutable immediates live inline in
values, mutable dict/list objects live in a heap addressed by index, and
allocation appends.  `denote` reads a value back as the JSON tree it
describes; the claim is that this tree, for the caller's original value,
is unchanged by cleaning plus ring mutation. -/

abbrev Addr := Nat

inductive PVal where
  | pnull
  | pbool (b : Bool)
  | pint (n : Int)
  | pstr (s : String)
  | ref (a : Addr)
deriving DecidableEq

inductive PObj where
  | pdict (fields : List (String × PVal))
  | plist (elems : List PVal)
deriving DecidableEq

abbrev Heap := List PObj

/-- Clean each dict field value with `f`, threading the heap. -/
def cleanFieldsGo (f : Heap → PVal → Option (Heap × PVal)) :
    Heap → List (String × PVal) → Option (Heap × List (String × PVal))
  | h, [] => some (h, [])
  | h, (k, v) :: rest =>
    match f h v with
    | none => none
    | some (h1, v') =>
      match cleanFieldsGo f h1 rest with
      | none => none
      | some (h2, rest') => some (h2, (k, v') :: rest')

/-- Clean each list element with `f`, threading the heap. -/
def cleanElemsGo (f : Heap → PVal → Option (Heap × PVal)) :
    Heap → List PVal → Option (Heap × List PVal)
  | h, [] => some (h, [])
  | h, v :: rest =>
    match f h v with
    | none => none
    | some (h1, v') =>
      match cleanElemsGo f h1 rest with
      | none => none
      | some (h2, rest') => some (h2, v' :: rest')

/-- Heap-level `clean_dict` (`load_tweets.py` lines 56–64): a dict or
list input is rebuilt as a *freshly allocated* object over cleaned
children (the comprehensions build new containers); strings are
NUL-stripped; any other scalar is returned as-is.  `fuel` bounds the
recursion depth (Python recursion is likewise finite); `none` means the
fuel ran out or a dangling reference was hit. -/
def cleanDictH : Nat → Heap → PVal → Option (Heap × PVal)
  | 0, _, _ => none
  | fuel + 1, h, v =>
    match v with
    | .pstr s => some (h, .pstr (stripNulls s))
    | .ref a =>
      match h.get? a with
      | some (.pdict fs) =>
        match cleanFieldsGo (cleanDictH fuel) h fs with
        | some (h2, fs') => some (h2 ++ [.pdict fs'], .ref h2.length)
        | none => none
      | some (.plist es) =>
        match cleanElemsGo (cleanDictH fuel) h es with
        | some (h2, es') => some (h2 ++ [.plist es'], .ref h2.length)
        | none => none
      | none => none
    | w => some (h, w)

/-- The JSON tree a heap value describes. -/
inductive Tree where
  | tnull
  | tbool (b : Bool)
  | tint (n : Int)
  | tstr (s : String)
  | tarr (elems : List Tree)
  | tobj (fields : List (String × Tree))

def denoteFieldsGo (f : PVal → Option Tree) :
    List (String × PVal) → Option (List (String × Tree))
  | [] => some []
  | (k, v) :: rest =>
    match f v with
    | none => none
    | some t =>
      match denoteFieldsGo f rest with
      | none => none
      | some ts => some ((k, t) :: ts)

def denoteElemsGo (f : PVal → Option Tree) :
    List PVal → Option (List Tree)
  | [] => some []
  | v :: rest =>
    match f v with
    | none => none
    | some t =>
      match denoteElemsGo f rest with
      | none => none
      | some ts => some (t :: ts)

/-- Read a value back as the tree it denotes (fuel-bounded). -/
def denote : Nat → Heap → PVal → Option Tree
  | 0, _, _ => none
  | fuel + 1, h, v =>
    match v with
    | .pnull => some Tree.tnull
    | .pbool b => some (Tree.tbool b)
    | .pint n => some (Tree.tint n)
    | .pstr s => some (Tree.tstr s)
    | .ref a =>
      match h.get? a with
      | some (.pdict fs) => (denoteFieldsGo (denote fuel h) fs).map Tree.tobj
      | some (.plist es) => (denoteElemsGo (denote fuel h) es).map Tree.tarr
      | none => none

/-- Python `d[k]` on a dict object. -/
def dictLookup (h : Heap) (v : PVal) (k : String) : Option PVal :=
  match v with
  | .ref a =>
    match h.get? a with
    | some (.pdict fs) => (fs.find? (fun kv => kv.1 == k)).map Prod.snd
    | _ => none
  | _ => none

/-- Python `l[0]` on a list object. -/
def listFirst (h : Heap) (v : PVal) : Option PVal :=
  match v with
  | .ref a =>
    match h.get? a with
    | some (.plist es) => es.head?
    | _ => none
  | _ => none

/-- The address of the ring object
`tweet['place']['bounding_box']['coordinates'][0]`. -/
def ringAddr (h : Heap) (v : PVal) : Option Addr :=
  match dictLookup h v "place" with
  | some pl =>
    match dictLookup h pl "bounding_box" with
    | some bb =>
      match dictLookup h bb "coordinates" with
      | some co =>
        match listFirst h co with
        | some (.ref a) => some a
        | _ => none
      | none => none
    | none => none
  | none => none

/-- Element-wise `==` over two value lists. -/
def pvalEqGoList (f : PVal → PVal → Option Bool) :
    List PVal → List PVal → Option Bool
  | [], [] => some true
  | x :: xs, y :: ys =>
    match f x y with
    | some true => pvalEqGoList f xs ys
    | some false => some false
    | none => none
  | _, _ => some false

/-- Python `==` between heap values (fuel-bounded; dicts compared as
ordered pair lists — for the list-of-numbers ring vertices this matches
Python value equality, and the frame theorem below holds regardless of
this function's verdict). -/
def pvalEqH : Nat → Heap → PVal → PVal → Option Bool
  | 0, _, _, _ => none
  | fuel + 1, h, v, w =>
    match v, w with
    | .ref a, .ref b =>
      match h.get? a, h.get? b with
      | some (.plist es), some (.plist fs) =>
        pvalEqGoList (pvalEqH fuel h) es fs
      | some (.pdict es), some (.pdict fs) =>
        pvalEqGoList (pvalEqH fuel h) (es.map Prod.snd) (fs.map Prod.snd)
      | some _, some _ => some false
      | _, _ => none
    | .ref _, _ => some false
    | _, .ref _ => some false
    | v', w' => some (decide (v' = w'))

/-- Lines 132–134 of `load_tweets.py`:
`ring = tweet['place']['bounding_box']['coordinates'][0]` followed by
`if ring[0] != ring[-1]: ring.append(ring[0])` — an in-place mutation of
the list object at `ringAddr`.  A failed lookup, an empty ring or
exhausted equality fuel models an exception swallowed by the enclosing
`except`: no mutation. -/
def ringCloseH (eqFuel : Nat) (h : Heap) (v : PVal) : Heap :=
  match ringAddr h v with
  | some a =>
    match h.get? a with
    | some (.plist (e0 :: es)) =>
      match pvalEqH eqFuel h e0 ((e0 :: es).getLastD e0) with
      | some false => h.set a (.plist ((e0 :: es) ++ [e0]))
      | _ => h
    | _ => h
  | none => h

/-- The values directly contained in a heap object. -/
def objVals : PObj → List PVal
  | .pdict fs => fs.map Prod.snd
  | .plist es => es

/-- A value whose (direct) reference, if any, is at or above `n`. -/
def freshVal (n : Nat) : PVal → Prop
  | .ref a => n ≤ a
  | _ => True

/-- Every object stored at or above `n` only references addresses at or
above `n`. -/
def globalFresh (n : Nat) (h : Heap) : Prop :=
  ∀ a obj, n ≤ a → h.get? a = some obj → ∀ w ∈ objVals obj, freshVal n w

theorem length_le_of_get?_eq_some {h : Heap} {a : Addr} {obj : PObj}
    (hget : h.get? a = some obj) : a < h.length := by
  by_contra hle
  push_neg at hle
  rw [List.get?_eq_none.mpr hle] at hget
  exact absurd hget (by simp)

theorem globalFresh_initial (h : Heap) : globalFresh h.length h := by
  intro a obj ha hget
  have hlt := length_le_of_get?_eq_some hget
  exact absurd hlt (Nat.not_lt.mpr ha)

/-- The guarantees of one cleaning step: the heap only grows, existing
cells are untouched, global freshness is maintained, and the returned
value is fresh. -/
def cleanStepOk (n : Nat) (h h' : Heap) (v' : PVal) : Prop :=
  h.length ≤ h'.length ∧ (∀ b, b < h.length → h'.get? b = h.get? b) ∧
    globalFresh n h' ∧ freshVal n v'

theorem cleanFieldsGo_spec (n : Nat)
    (f : Heap → PVal → Option (Heap × PVal))
    (Hf : ∀ h v h' v', n ≤ h.length → globalFresh n h →
        f h v = some (h', v') → cleanStepOk n h h' v') :
    ∀ fs (h h2 : Heap) fs', n ≤ h.length → globalFresh n h →
      cleanFieldsGo f h fs = some (h2, fs') →
      (h.length ≤ h2.length ∧ (∀ b, b < h.length → h2.get? b = h.get? b) ∧
        globalFresh n h2 ∧ ∀ kv ∈ fs', freshVal n kv.2) := by
  intro fs
  induction fs with
  | nil =>
    intro h h2 fs' hn hg hcl
    rw [cleanFieldsGo] at hcl
    simp only [Option.some.injEq, Prod.mk.injEq] at hcl
    obtain ⟨rfl, rfl⟩ := hcl
    exact ⟨Nat.le_refl _, fun b _ => rfl, hg, by simp⟩
  | cons kv rest ih =>
    intro h h2 fs' hn hg hcl
    obtain ⟨k, v⟩ := kv
    rw [cleanFieldsGo] at hcl
    cases hf : f h v with
    | none => rw [hf] at hcl; simp at hcl
    | some p =>
      obtain ⟨h1, v'⟩ := p
      rw [hf] at hcl
      simp only [] at hcl
      cases hrest : cleanFieldsGo f h1 rest with
      | none => rw [hrest] at hcl; simp at hcl
      | some q =>
        obtain ⟨hh2, rest'⟩ := q
        rw [hrest] at hcl
        simp only [Option.some.injEq, Prod.mk.injEq] at hcl
        obtain ⟨rfl, rfl⟩ := hcl
        obtain ⟨hlen1, hagree1, hg1, hv'⟩ := Hf h v h1 v' hn hg hf
        obtain ⟨hlen2, hagree2, hg2, hrest'⟩ :=
          ih h1 hh2 rest' (hn.trans hlen1) hg1 hrest
        refine ⟨hlen1.trans hlen2, ?_, hg2, ?_⟩
        · intro b hb
          rw [hagree2 b (Nat.lt_of_lt_of_le hb hlen1), hagree1 b hb]
        · intro kv hkv
          rcases List.mem_cons.mp hkv with h | h
          · subst h
            exact hv'
          · exact hrest' kv h

theorem cleanElemsGo_spec (n : Nat)
    (f : Heap → PVal → Option (Heap × PVal))
    (Hf : ∀ h v h' v', n ≤ h.length → globalFresh n h →
        f h v = some (h', v') → cleanStepOk n h h' v') :
    ∀ es (h h2 : Heap) es', n ≤ h.length → globalFresh n h →
      cleanElemsGo f h es = some (h2, es') →
      (h.length ≤ h2.length ∧ (∀ b, b < h.length → h2.get? b = h.get? b) ∧
        globalFresh n h2 ∧ ∀ w ∈ es', freshVal n w) := by
  intro es
  induction es with
  | nil =>
    intro h h2 es' hn hg hcl
    rw [cleanElemsGo] at hcl
    simp only [Option.some.injEq, Prod.mk.injEq] at hcl
    obtain ⟨rfl, rfl⟩ := hcl
    exact ⟨Nat.le_refl _, fun b _ => rfl, hg, by simp⟩
  | cons v rest ih =>
    intro h h2 es' hn hg hcl
    rw [cleanElemsGo] at hcl
    cases hf : f h v with
    | none => rw [hf] at hcl; simp at hcl
    | some p =>
      obtain ⟨h1, v'⟩ := p
      rw [hf] at hcl
      simp only [] at hcl
      cases hrest : cleanElemsGo f h1 rest with
      | none => rw [hrest] at hcl; simp at hcl
      | some q =>
        obtain ⟨hh2, rest'⟩ := q
        rw [hrest] at hcl
        simp only [Option.some.injEq, Prod.mk.injEq] at hcl
        obtain ⟨rfl, rfl⟩ := hcl
        obtain ⟨hlen1, hagree1, hg1, hv'⟩ := Hf h v h1 v' hn hg hf
        obtain ⟨hlen2, hagree2, hg2, hrest'⟩ :=
          ih h1 hh2 rest' (hn.trans hlen1) hg1 hrest
        refine ⟨hlen1.trans hlen2, ?_, hg2, ?_⟩
        · intro b hb
          rw [hagree2 b (Nat.lt_of_lt_of_le hb hlen1), hagree1 b hb]
        · intro w hw
          rcases List.mem_cons.mp hw with h | h
          · subst h
            exact hv'
          · exact hrest' w h

/-- Appending a freshly built object preserves global freshness when all
its direct values are fresh. -/
theorem globalFresh_append (n : Nat) (h : Heap) (obj : PObj)
    (hn : n ≤ h.length) (hg : globalFresh n h)
    (hobj : ∀ w ∈ objVals obj, freshVal n w) :
    globalFresh n (h ++ [obj]) := by
  intro a o ha hget
  rcases Nat.lt_trichotomy a h.length with hlt | heq | hgt
  · rw [List.get?_append hlt] at hget
    exact hg a o ha hget
  · subst heq
    rw [List.get?_concat_length] at hget
    cases hget
    exact hobj
  · have : (h ++ [obj]).length ≤ a := by
      simp only [List.length_append, List.length_cons, List.length_nil]
      omega
    rw [List.get?_eq_none.mpr this] at hget
    exact absurd hget (by simp)

/-- The cleaning pass only appends fresh, internally fresh objects. -/
theorem cleanDictH_spec :
    ∀ fuel n (h : Heap) v (h' : Heap) v', n ≤ h.length → globalFresh n h →
      cleanDictH fuel h v = some (h', v') → cleanStepOk n h h' v' := by
  intro fuel
  induction fuel with
  | zero =>
    intro n h v h' v' _ _ hcl
    rw [cleanDictH] at hcl
    exact absurd hcl (by simp)
  | succ fuel ih =>
    intro n h v h' v' hn hg hcl
    cases v with
    | pnull =>
      simp only [cleanDictH, Option.some.injEq, Prod.mk.injEq] at hcl
      obtain ⟨rfl, rfl⟩ := hcl
      exact ⟨Nat.le_refl _, fun b _ => rfl, hg, trivial⟩
    | pbool b =>
      simp only [cleanDictH, Option.some.injEq, Prod.mk.injEq] at hcl
      obtain ⟨rfl, rfl⟩ := hcl
      exact ⟨Nat.le_refl _, fun b _ => rfl, hg, trivial⟩
    | pint m =>
      simp only [cleanDictH, Option.some.injEq, Prod.mk.injEq] at hcl
      obtain ⟨rfl, rfl⟩ := hcl
      exact ⟨Nat.le_refl _, fun b _ => rfl, hg, trivial⟩
    | pstr s =>
      simp only [cleanDictH, Option.some.injEq, Prod.mk.injEq] at hcl
      obtain ⟨rfl, rfl⟩ := hcl
      exact ⟨Nat.le_refl _, fun b _ => rfl, hg, trivial⟩
    | ref a =>
      rw [cleanDictH] at hcl
      cases hga : h.get? a with
      | none => rw [hga] at hcl; simp at hcl
      | some obj =>
        rw [hga] at hcl
        cases obj with
        | pdict fs =>
          simp only [] at hcl
          cases hfs : cleanFieldsGo (cleanDictH fuel) h fs with
          | none => rw [hfs] at hcl; simp at hcl
          | some p =>
            obtain ⟨h2, fs'⟩ := p
            rw [hfs] at hcl
            simp only [Option.some.injEq, Prod.mk.injEq] at hcl
            obtain ⟨rfl, rfl⟩ := hcl
            obtain ⟨hlen, hagree, hg2, hfresh⟩ :=
              cleanFieldsGo_spec n (cleanDictH fuel)
                (fun h v h' v' hn hg hcl => ih n h v h' v' hn hg hcl)
                fs h h2 fs' hn hg hfs
            refine ⟨?_, ?_, ?_, ?_⟩
            · simp only [List.length_append, List.length_cons,
                List.length_nil]
              omega
            · intro b hb
              rw [List.get?_append (Nat.lt_of_lt_of_le hb hlen)]
              exact hagree b hb
            · refine globalFresh_append n h2 _ (hn.trans hlen) hg2 ?_
              intro w hw
              rw [objVals] at hw
              obtain ⟨kv, hkv, rfl⟩ := List.mem_map.mp hw
              exact hfresh kv hkv
            · exact hn.trans hlen
        | plist es =>
          simp only [] at hcl
          cases hes : cleanElemsGo (cleanDictH fuel) h es with
          | none => rw [hes] at hcl; simp at hcl
          | some p =>
            obtain ⟨h2, es'⟩ := p
            rw [hes] at hcl
            simp only [Option.some.injEq, Prod.mk.injEq] at hcl
            obtain ⟨rfl, rfl⟩ := hcl
            obtain ⟨hlen, hagree, hg2, hfresh⟩ :=
              cleanElemsGo_spec n (cleanDictH fuel)
                (fun h v h' v' hn hg hcl => ih n h v h' v' hn hg hcl)
                es h h2 es' hn hg hes
            refine ⟨?_, ?_, ?_, ?_⟩
            · simp only [List.length_append, List.length_cons,
                List.length_nil]
              omega
            · intro b hb
              rw [List.get?_append (Nat.lt_of_lt_of_le hb hlen)]
              exact hagree b hb
            · refine globalFresh_append n h2 _ (hn.trans hlen) hg2 ?_
              intro w hw
              rw [objVals] at hw
              exact hfresh w hw
            · exact hn.trans hlen

theorem denoteFieldsGo_stable (f f' : PVal → Option Tree)
    (Hf : ∀ v t, f v = some t → f' v = some t) :
    ∀ fs ts, denoteFieldsGo f fs = some ts →
      denoteFieldsGo f' fs = some ts := by
  intro fs
  induction fs with
  | nil => intro ts h; exact h
  | cons kv rest ih =>
    intro ts h
    obtain ⟨k, v⟩ := kv
    rw [denoteFieldsGo] at h ⊢
    cases hv : f v with
    | none => rw [hv] at h; simp at h
    | some t1 =>
      rw [hv] at h
      simp only [] at h
      cases hrest : denoteFieldsGo f rest with
      | none => rw [hrest] at h; simp at h
      | some ts1 =>
        rw [hrest] at h
        rw [Hf v t1 hv]
        simp only [] at h ⊢
        rw [ih ts1 hrest]
        exact h

theorem denoteElemsGo_stable (f f' : PVal → Option Tree)
    (Hf : ∀ v t, f v = some t → f' v = some t) :
    ∀ es ts, denoteElemsGo f es = some ts →
      denoteElemsGo f' es = some ts := by
  intro es
  induction es with
  | nil => intro ts h; exact h
  | cons v rest ih =>
    intro ts h
    rw [denoteElemsGo] at h ⊢
    cases hv : f v with
    | none => rw [hv] at h; simp at h
    | some t1 =>
      rw [hv] at h
      simp only [] at h
      cases hrest : denoteElemsGo f rest with
      | none => rw [hrest] at h; simp at h
      | some ts1 =>
        rw [hrest] at h
        rw [Hf v t1 hv]
        simp only [] at h ⊢
        rw [ih ts1 hrest]
        exact h

/-- Denotation only depends on the cells a value actually reaches: a
heap agreeing on all cells of `h` denotes equally. -/
theorem denote_stable :
    ∀ fuel (h h' : Heap) v t,
      (∀ b, b < h.length → h'.get? b = h.get? b) →
      denote fuel h v = some t → denote fuel h' v = some t := by
  intro fuel
  induction fuel with
  | zero =>
    intro h h' v t _ hd
    rw [denote] at hd
    exact absurd hd (by simp)
  | succ fuel ih =>
    intro h h' v t hag hd
    cases v with
    | pnull => exact hd
    | pbool b => exact hd
    | pint m => exact hd
    | pstr s => exact hd
    | ref a =>
      rw [denote] at hd ⊢
      cases hga : h.get? a with
      | none => rw [hga] at hd; simp at hd
      | some obj =>
        have ha : a < h.length := length_le_of_get?_eq_some hga
        rw [hga] at hd
        rw [hag a ha, hga]
        cases obj with
        | pdict fs =>
          simp only [] at hd ⊢
          cases hdf : denoteFieldsGo (denote fuel h) fs with
          | none => rw [hdf] at hd; simp at hd
          | some ts =>
            rw [hdf] at hd
            rw [denoteFieldsGo_stable (denote fuel h) (denote fuel h')
              (fun v t hv => ih h h' v t hag hv) fs ts hdf]
            exact hd
        | plist es =>
          simp only [] at hd ⊢
          cases hde : denoteElemsGo (denote fuel h) es with
          | none => rw [hde] at hd; simp at hd
          | some ts =>
            rw [hde] at hd
            rw [denoteElemsGo_stable (denote fuel h) (denote fuel h')
              (fun v t hv => ih h h' v t hag hv) es ts hde]
            exact hd

theorem head?_mem {α : Type _} {l : List α} {x : α}
    (h : l.head? = some x) : x ∈ l := by
  cases l with
  | nil => simp at h
  | cons y ys =>
    simp only [List.head?_cons, Option.some.injEq] at h
    subst h
    exact List.mem_cons_self _ _

theorem dictLookup_fresh (n : Nat) (h : Heap) (v pl : PVal) (k : String)
    (hg : globalFresh n h) (hv : freshVal n v)
    (hl : dictLookup h v k = some pl) : freshVal n pl := by
  cases v with
  | ref a =>
    rw [dictLookup] at hl
    cases hga : h.get? a with
    | none => rw [hga] at hl; simp at hl
    | some obj =>
      rw [hga] at hl
      cases obj with
      | pdict fs =>
        simp only [] at hl
        cases hf : fs.find? (fun kv => kv.1 == k) with
        | none => rw [hf] at hl; simp at hl
        | some kv =>
          rw [hf] at hl
          simp only [Option.map_some', Option.some.injEq] at hl
          subst hl
          have hmem : kv ∈ fs := List.mem_of_find?_eq_some hf
          have hval : kv.2 ∈ objVals (PObj.pdict fs) := by
            rw [objVals]
            exact List.mem_map_of_mem Prod.snd hmem
          exact hg a _ hv hga kv.2 hval
      | plist es => simp at hl
  | pnull => simp [dictLookup] at hl
  | pbool b => simp [dictLookup] at hl
  | pint m => simp [dictLookup] at hl
  | pstr s => simp [dictLookup] at hl

theorem listFirst_fresh (n : Nat) (h : Heap) (v w : PVal)
    (hg : globalFresh n h) (hv : freshVal n v)
    (hl : listFirst h v = some w) : freshVal n w := by
  cases v with
  | ref a =>
    rw [listFirst] at hl
    cases hga : h.get? a with
    | none => rw [hga] at hl; simp at hl
    | some obj =>
      rw [hga] at hl
      cases obj with
      | pdict fs => simp at hl
      | plist es =>
        simp only [] at hl
        have hmem : w ∈ es := head?_mem hl
        exact hg a _ hv hga w hmem
  | pnull => simp [listFirst] at hl
  | pbool b => simp [listFirst] at hl
  | pint m => simp [listFirst] at hl
  | pstr s => simp [listFirst] at hl

/-- The ring address found by navigating from a fresh value through a
globally fresh heap is itself fresh. -/
theorem ringAddr_fresh (n : Nat) (h : Heap) (v : PVal) (a : Addr)
    (hg : globalFresh n h) (hv : freshVal n v)
    (hr : ringAddr h v = some a) : n ≤ a := by
  rw [ringAddr] at hr
  cases h1 : dictLookup h v "place" with
  | none => rw [h1] at hr; simp at hr
  | some pl =>
    rw [h1] at hr
    simp only [] at hr
    cases h2 : dictLookup h pl "bounding_box" with
    | none => rw [h2] at hr; simp at hr
    | some bb =>
      rw [h2] at hr
      simp only [] at hr
      cases h3 : dictLookup h bb "coordinates" with
      | none => rw [h3] at hr; simp at hr
      | some co =>
        rw [h3] at hr
        simp only [] at hr
        cases h4 : listFirst h co with
        | none => rw [h4] at hr; simp at hr
        | some r =>
          rw [h4] at hr
          have hpl := dictLookup_fresh n h v pl "place" hg hv h1
          have hbb := dictLookup_fresh n h pl bb "bounding_box" hg hpl h2
          have hco := dictLookup_fresh n h bb co "coordinates" hg hbb h3
          have hrr := listFirst_fresh n h co r hg hco h4
          cases r with
          | ref b =>
            simp only [Option.some.injEq] at hr
            subst hr
            exact hrr
          | pnull => simp at hr
          | pbool bb' => simp at hr
          | pint m => simp at hr
          | pstr s => simp at hr

/-- Ring closing only ever writes at the (fresh) ring address: every
cell below `n` is untouched. -/
theorem ringCloseH_agrees (eqFuel : Nat) (h : Heap) (v : PVal) (n : Nat)
    (hg : globalFresh n h) (hv : freshVal n v) :
    ∀ b, b < n → (ringCloseH eqFuel h v).get? b = h.get? b := by
  intro b hb
  rw [ringCloseH]
  cases hra : ringAddr h v with
  | none => rfl
  | some a =>
    have ha : n ≤ a := ringAddr_fresh n h v a hg hv hra
    simp only []
    cases hga : h.get? a with
    | none => rfl
    | some obj =>
      cases obj with
      | pdict fs => rfl
      | plist es =>
        cases es with
        | nil => rfl
        | cons e0 rest =>
          simp only []
          cases pvalEqH eqFuel h e0 ((e0 :: rest).getLastD e0) with
          | none => rfl
          | some bl =>
            cases bl with
            | true => rfl
            | false =>
              simp only []
              rw [List.get?_eq_getElem?, List.get?_eq_getElem?,
                List.getElem?_set_ne (by omega)]

/-- C10.  The caller's record is unaffected by `insert_tweet`'s only
in-place mutation: `clean_dict` returns a fresh deep copy (every mutable
object it returns is newly allocated), so the ring-closing `append`
writes only into the copy — the denotation of the original value under
the final heap equals its denotation under the initial heap. -/
theorem clean_dict_frame (df cf ef : Nat) (h : Heap) (v : PVal)
    (h' : Heap) (v' : PVal) (t : Tree)
    (hden : denote df h v = some t)
    (hclean : cleanDictH cf h v = some (h', v')) :
    denote df (ringCloseH ef h' v') v = some t := by
  obtain ⟨hlen, hagree, hg, hv⟩ :=
    cleanDictH_spec cf h.length h v h' v' (Nat.le_refl _)
      (globalFresh_initial h) hclean
  apply denote_stable df h (ringCloseH ef h' v') v t ?_ hden
  intro b hb
  rw [ringCloseH_agrees ef h' v' h.length hg hv b hb]
  exact hagree b hb

/-- A concrete caller heap: an open two-vertex ring inside
`place.bounding_box.coordinates`, plus a string leaf. -/
def h0 : Heap :=
  [PObj.plist [PVal.pint 0, PVal.pint 0],
    PObj.plist [PVal.pint 0, PVal.pint 1],
    PObj.plist [PVal.ref 0, PVal.ref 1],
    PObj.pdict [("coordinates", PVal.ref 2)],
    PObj.pdict [("bounding_box", PVal.ref 3)],
    PObj.pdict [("place", PVal.ref 4), ("text", PVal.pstr "hi")]]

def v0 : PVal := PVal.ref 5

/-- The tree `v0` denotes in `h0`. -/
def t0 : Tree :=
  Tree.tobj
    [("place",
      Tree.tobj
        [("bounding_box",
          Tree.tobj
            [("coordinates",
              Tree.tarr
                [Tree.tarr [Tree.tint 0, Tree.tint 0],
                  Tree.tarr [Tree.tint 0, Tree.tint 1]])])]),
      ("text", Tree.tstr "hi")]

/-- C10 witness: cleaning `v0` in `h0` and then closing the ring of the
cleaned copy leaves the original `v0` denoting exactly `t0`. -/
theorem clean_dict_frame_witness :
    denote 10
        (ringCloseH 10 ((cleanDictH 10 h0 v0).getD ([], PVal.pnull)).1
          ((cleanDictH 10 h0 v0).getD ([], PVal.pnull)).2)
        v0
      = some t0 :=
  clean_dict_frame 10 10 10 h0 v0 _ _ t0 (by rfl) (by rfl)

end Loader
